import Mathlib

/-!
Verification development for the ImagesToPDF converter (`src/main.py`).

The Python program is shallowly embedded: pure computations become Lean
functions over `Nat`, `Int` and `ℚ` (Python's float arithmetic is modelled
by exact rational arithmetic; the spec's properties are all stated "within
rounding", so exact rationals are the intended reading).  External effects
(PIL image decoding, file reads, WebP encoding, exceptions raised inside
the per-item `try` block) are modelled by an explicit environment `Env` of
abstract functions, and the nondeterministic arrival order of
`imap_unordered` is modelled by quantifying over permutations of the list
of chunk results.

Python's `list.sort(key=...)` is a stable sort; it is modelled by
`List.insertionSort`, which is likewise stable (any two stable sorts with
respect to the same total preorder on keys produce the same output, so the
choice of stable sorting algorithm is immaterial).

Character-level string operations (`str.isdigit`, `str.lower`) are
modelled at ASCII precision (`Char.isDigit`, `Char.toLower`), matching the
regular expression `[0-9]+` in `natural_sort_key` and the file names the
program is designed for.
-/

/-- Byte buffers (`io.BytesIO` contents / raw file bytes) are modelled as
lists of naturals. -/
abbrev Bytes := List Nat

/-- Python `int(q)` truncates toward zero. -/
def pyInt (q : ℚ) : ℤ := if q < 0 then -⌊-q⌋ else ⌊q⌋

/-- reportlab `A4[0]` = 210*mm where mm = 72/25.4 points, i.e. 75600/127. -/
def A4w : ℚ := 75600 / 127

/-- reportlab `A4[1]` = 297*mm = 106920/127 points. -/
def A4h : ℚ := 106920 / 127

/-- `os.path.basename`: the part of the path after the last slash. -/
def basename (l : List Char) : List Char :=
  (l.reverse.takeWhile (fun c => c != '/')).reverse

/-- Fuel-driven worker for `reSplitDigits`; the fuel is the length of the
string, which suffices because every recursive step consumes at least one
character (the digit run it found is nonempty). -/
def splitGo : Nat → List Char → List (List Char)
  | 0, s => [s.takeWhile (fun c => !c.isDigit)]
  | fuel + 1, s =>
    match s.dropWhile (fun c => !c.isDigit) with
    | [] => [s.takeWhile (fun c => !c.isDigit)]
    | d :: rest =>
      s.takeWhile (fun c => !c.isDigit)
        :: (d :: rest).takeWhile Char.isDigit
        :: splitGo fuel ((d :: rest).dropWhile Char.isDigit)

/-- Python `re.split('([0-9]+)', s)`: the alternating list of (possibly
empty) non-digit runs and (nonempty) digit runs of `s`, starting and
ending with a non-digit run. -/
def reSplitDigits (s : List Char) : List (List Char) := splitGo s.length s

/-- One element of a natural-sort key: either a lowered text run or the
integer value of a digit run (`int(text) if text.isdigit() else
text.lower()` in `natural_sort_key`, main.py lines 31-34). -/
inductive KeyElem where
  | str (s : List Char)
  | num (n : Nat)
deriving DecidableEq

/-- Python `text.isdigit()` for the runs produced by the split: nonempty
and all (ASCII) digits. -/
def pyIsDigit (t : List Char) : Bool := !t.isEmpty && t.all Char.isDigit

/-- Python `int(text)` on a digit run. -/
def digitsToNat (t : List Char) : Nat := t.foldl (fun a c => 10 * a + (c.toNat - 48)) 0

/-- The per-run mapping inside `natural_sort_key`. -/
def tagRun (t : List Char) : KeyElem :=
  if pyIsDigit t then .num (digitsToNat t) else .str (t.map Char.toLower)

/-- `natural_sort_key` (main.py lines 31-34). -/
def natural_sort_key (s : String) : List KeyElem :=
  (reSplitDigits (basename s.data)).map tagRun

/-- Python comparison of two naturals as an `Ordering`. -/
def cmpNat (m n : Nat) : Ordering := if m < n then .lt else if n < m then .gt else .eq

/-- Python string comparison: lexicographic on code points. -/
def cmpChars : List Char → List Char → Ordering
  | [], [] => .eq
  | [], _ :: _ => .lt
  | _ :: _, [] => .gt
  | a :: as, b :: bs =>
    match cmpNat a.toNat b.toNat with
    | .eq => cmpChars as bs
    | o => o

/-- Python comparison of two key elements.  Comparing an `int` with a
`str` raises `TypeError` in Python; that case is modelled by `none`. -/
def cmpElem : KeyElem → KeyElem → Option Ordering
  | .str a, .str b => some (cmpChars a b)
  | .num m, .num n => some (cmpNat m n)
  | _, _ => none

/-- Python list comparison of two sort keys: elementwise, first
difference decides, a strict prefix is smaller; `none` propagates a
`TypeError` from a mixed int/str comparison. -/
def cmpKey : List KeyElem → List KeyElem → Option Ordering
  | [], [] => some .eq
  | [], _ :: _ => some .lt
  | _ :: _, [] => some .gt
  | a :: as, b :: bs =>
    match cmpElem a b with
    | none => none
    | some .eq => cmpKey as bs
    | some o => some o

/-- The non-strict preorder on keys used by the stable sort: `k1` may be
placed before `k2` unless `k1` compares strictly greater. -/
def keyLE (k1 k2 : List KeyElem) : Bool :=
  match cmpKey k1 k2 with
  | some .gt => false
  | _ => true

/-- Ordering of file paths by their natural-sort keys, as used by
`image_files.sort(key=natural_sort_key)` (main.py line 187). -/
def fileLE (a b : String) : Prop := keyLE (natural_sort_key a) (natural_sort_key b) = true

instance : DecidableRel fileLE := fun _ _ => instDecidableEqBool _ _

/-- The Sequencer: Python's stable `list.sort(key=natural_sort_key)`. -/
def naturalSort (files : List String) : List String := List.insertionSort fileLE files

/-- The image metadata the Transformer reads from a decoded image:
pixel dimensions, the `dpi` entry of `img.info` (already reduced to its
first component when it is a tuple), and `img.format`. -/
structure ImageInfo where
  width : Nat
  height : Nat
  dpiInfo : Option ℚ
  format : Option String
deriving DecidableEq

/-- The external world of one run: `exn path` is `some msg` when the
processing of `path` raises an exception anywhere inside the per-item
`try` block (with `str(e) = msg`); `img` is the decoded image metadata;
`fileBytes` is the raw content of the file on disk (`open(path,'rb')`);
`encodeWebp path w h resized` is the WebP encoding (quality 80, method 6)
of the optimized, possibly resized image. -/
structure Env where
  exn : String → Option String
  img : String → ImageInfo
  fileBytes : String → Bytes
  encodeWebp : String → ℤ → ℤ → Bool → Bytes

/-- One transform result dictionary (main.py lines 106-122): the
`success=True` payload or the `success=False` error record. -/
inductive TResult where
  | ok (index : Nat) (buffer : Bytes) (width height : ℚ) (originalFormat : Option String)
      (converted : Bool)
  | err (index : Nat) (errorMessage : String)
deriving DecidableEq

def TResult.index : TResult → Nat
  | .ok i _ _ _ _ _ => i
  | .err i _ => i

def TResult.isSuccess : TResult → Bool
  | .ok _ _ _ _ _ _ => true
  | .err _ _ => false

def TResult.convertedFlag : TResult → Bool
  | .ok _ _ _ _ _ c => c
  | .err _ _ => false

/-- DPI extraction (main.py lines 72-74) with the configured default 300. -/
def dpiOf (info : ImageInfo) : ℚ := info.dpiInfo.getD 300

/-- `image_path.lower().endswith('.webp')` (main.py line 67). -/
def is_webp_path (p : String) : Bool :=
  List.isSuffixOf ".webp".data (p.data.map Char.toLower)

/-- Target pixel size computation (main.py lines 76-85): the axis with
the smaller page/image ratio constrains the fit. -/
def fitSize (w h : Nat) (dpi : ℚ) : ℤ × ℤ :=
  let width_ratio := A4w / w
  let height_ratio := A4h / h
  if width_ratio < height_ratio then
    (pyInt (A4w * dpi / 72), pyInt (h * width_ratio * dpi / 72))
  else
    (pyInt (w * height_ratio * dpi / 72), pyInt (A4h * dpi / 72))

/-- `needs_resize` (main.py lines 49-59).  Note that the function rescales
the target it is given by `dpi/72` before comparing, even though its
caller already passes pixel dimensions. -/
def needs_resize (img_size : Nat × Nat) (target_size : ℤ × ℤ) (dpi : ℚ) : Bool :=
  let target_width : ℤ := pyInt (target_size.1 * dpi / 72)
  let target_height : ℤ := pyInt (target_size.2 * dpi / 72)
  let width_diff : ℚ := |(img_size.1 : ℚ) - target_width| / target_width
  let height_diff : ℚ := |(img_size.2 : ℚ) - target_height| / target_height
  decide (width_diff > 1 / 100) || decide (height_diff > 1 / 100)

/-- The body of the per-item loop of `process_image_chunk` (main.py lines
64-122).  An exception anywhere in the `try` block yields the failure
record; otherwise the fit, resize decision and encoding decision are
computed as in lines 76-113.  After a resize Python rebinds `img` to the
resized image whose `format` is `None`, which the `originalFormat` field
reproduces. -/
def processItem (env : Env) (t : Nat × String) : TResult :=
  match env.exn t.2 with
  | some msg => .err t.1 msg
  | none =>
    let is_webp := is_webp_path t.2
    let info := env.img t.2
    let dpi := dpiOf info
    let target := fitSize info.width info.height dpi
    let resized := needs_resize (info.width, info.height) target dpi
    let needs_conversion := resized || !is_webp
    let buffer :=
      if needs_conversion then env.encodeWebp t.2 target.1 target.2 resized
      else env.fileBytes t.2
    .ok t.1 buffer (target.1 * 72 / dpi) (target.2 * 72 / dpi)
      (if is_webp then some "WEBP" else if resized then none else info.format)
      needs_conversion

/-- `process_image_chunk` (main.py lines 61-124): the items of a chunk are
processed sequentially and independently, each contributing exactly one
result. -/
def process_image_chunk (env : Env) (chunk_data : List (Nat × String)) : List TResult :=
  chunk_data.map (processItem env)

/-- Fuel-driven worker for `pyChunks`; the fuel is the list length, which
suffices for any chunk size of at least one. -/
def chunksGo {α : Type*} (c : Nat) : Nat → List α → List (List α)
  | _, [] => []
  | 0, _ :: _ => []
  | fuel + 1, a :: l => ((a :: l).take c) :: chunksGo c fuel ((a :: l).drop c)

/-- The chunk split `[indexed_files[i:i+CHUNK_SIZE] for i in range(0, n,
CHUNK_SIZE)]` (main.py lines 202-203). -/
def pyChunks {α : Type*} (c : Nat) (l : List α) : List (List α) := chunksGo c l.length l

/-- The list of per-chunk result lists, in submission order: natural sort,
enumeration, chunking, and one `process_image_chunk` per chunk (main.py
lines 197-217).  `imap_unordered` delivers a permutation of this list. -/
def chunkResults (env : Env) (files : List String) (c : Nat) : List (List TResult) :=
  (pyChunks c (naturalSort files).enum).map (process_image_chunk env)

/-- One placed PDF page: the centered drawing position, the drawn size,
the image buffer and the originating index (main.py lines 136-152). -/
structure Page where
  x : ℚ
  y : ℚ
  width : ℚ
  height : ℚ
  buffer : Bytes
  index : Nat
deriving DecidableEq

/-- Page placement for one result: a success is centered on the A4 page
at its recorded physical size, a failure gets no page. -/
def pageOf : TResult → Option Page
  | .ok i buf w h _ _ => some ⟨(A4w - w) / 2, (A4h - h) / 2, w, h, buf, i⟩
  | .err _ _ => none

/-- The sort key `lambda x: x['index']` (main.py line 132), as a
non-strict relation for the stable sort. -/
def resLE (a b : TResult) : Prop := a.index ≤ b.index

/-- Strict version of `resLE`, used to identify the unique sorted order
when all indices are distinct. -/
def resLT (a b : TResult) : Prop := a.index < b.index

instance : DecidableRel resLE := fun a b => Nat.decLe a.index b.index

/-- `create_pdf_from_buffers` (main.py lines 126-161): sort the results by
index (Python's stable `list.sort`), then emit one centered page per
success result, in order. -/
def create_pdf_from_buffers (processed_results : List TResult) : List Page :=
  (List.insertionSort resLE processed_results).filterMap pageOf

/-- The three counts the run reports (main.py lines 239-241): total images
processed, images converted, conversions skipped. -/
structure Summary where
  totalProcessed : Nat
  converted : Nat
  skipped : Nat
deriving DecidableEq

/-- The numeric values the run summary actually emits, in logging order
(main.py lines 239-241). -/
def summaryValues (s : Summary) : List Nat := [s.totalProcessed, s.converted, s.skipped]

/-- The number of failure results of a run. -/
def failedCount (results : List TResult) : Nat :=
  (results.filter (fun r => !r.isSuccess)).length

/-- `convert_images_to_pdf` (main.py lines 164-246), restricted to the
core: `discovered` is the glob result, `arrived` the chunk result lists in
arrival order (a permutation of `chunkResults`).  An empty input returns
before any chunking, pooling or PDF output (`None`); otherwise the
converted/skipped tallies of lines 218-223 are accumulated over all
arrived results, the successes are extracted and handed to
`create_pdf_from_buffers`, and the summary counts are emitted. -/
def convert_images_to_pdf (env : Env) (discovered : List String) (chunkSize : Nat)
    (arrived : List (List TResult)) : Option (List Page × Summary) :=
  let image_files := naturalSort discovered
  if image_files.isEmpty then none
  else
    let all_results := arrived.flatten
    let successful_results := all_results.filter (fun r => r.isSuccess)
    let converted_count := (all_results.filter (fun r => r.isSuccess && r.convertedFlag)).length
    let skipped_count := (all_results.filter (fun r => r.isSuccess && !r.convertedFlag)).length
    some (create_pdf_from_buffers successful_results,
      ⟨image_files.length, converted_count, skipped_count⟩)

/-- The reference page sequence: the naturally sorted input list,
enumerated, transformed in order, failures dropped. -/
def canonicalPages (env : Env) (files : List String) : List Page :=
  ((naturalSort files).enum.map (processItem env)).filterMap pageOf

/-- Modelled from the claim's words: the resize tolerance test with the
passed-in target pixel dimensions used directly (no `dpi/72` rescale). -/
def claimNeedsResize (img_size : Nat × Nat) (target_size : ℤ × ℤ) : Prop :=
  |(img_size.1 : ℚ) - target_size.1| / target_size.1 > 1 / 100 ∨
  |(img_size.2 : ℚ) - target_size.2| / target_size.2 > 1 / 100

/-- Expected constructor alternation of a sort key: `altOK false`
expects a text element next, `altOK true` a numeric element. -/
def altOK : Bool → List KeyElem → Bool
  | _, [] => true
  | false, .str _ :: r => altOK true r
  | true, .num _ :: r => altOK false r
  | _, _ => false

/-- Discriminator for the text constructor of `KeyElem`. -/
def isStrElem : KeyElem → Bool
  | .str _ => true
  | .num _ => false

/-- Concrete five-file input used for the failure-isolation run: the
third file raises during processing. -/
def files5 : List String := ["p1.png", "p2.png", "p3.png", "p4.png", "p5.png"]

/-- Concrete environment for the failure-isolation run: `p3.png` raises
an exception, every other file decodes to a 595x841 image at 72 DPI. -/
def env5 : Env where
  exn := fun p => if p = "p3.png" then some "corrupt" else none
  img := fun _ => ⟨595, 841, some 72, some "PNG"⟩
  fileBytes := fun _ => [0]
  encodeWebp := fun _ _ _ _ => [1]

/-- Concrete environment for the passthrough run: every file decodes to a
595x841 WebP image at 72 DPI, which is within the resize tolerance. -/
def envW : Env where
  exn := fun _ => none
  img := fun _ => ⟨595, 841, some 72, some "WEBP"⟩
  fileBytes := fun _ => [7]
  encodeWebp := fun _ _ _ _ => [8]

/-- Python `str.isdigit` at Unicode precision, restricted to the decimal
digit ranges exercised in this development: the ASCII digits and the
Arabic-Indic digits U+0660-U+0669.  Python's `isdigit` is true for every
Unicode decimal digit, which is strictly wider than the `[0-9]` class the
regular expression in `natural_sort_key` splits on. -/
def pyCharIsDigitU (c : Char) : Bool :=
  c.isDigit || decide (0x660 ≤ c.toNat ∧ c.toNat ≤ 0x669)

/-- Decimal value of a digit character (ASCII or Arabic-Indic), as
Python `int` reads it. -/
def digitValU (c : Char) : Nat :=
  if c.isDigit then c.toNat - 48
  else if 0x660 ≤ c.toNat ∧ c.toNat ≤ 0x669 then c.toNat - 0x660
  else 0

/-- Python `int(text)` on a digit run, at Unicode precision. -/
def digitsToNatU (t : List Char) : Nat := t.foldl (fun a c => 10 * a + digitValU c) 0

/-- Python `text.isdigit()` at Unicode precision. -/
def pyIsDigitU (t : List Char) : Bool := !t.isEmpty && t.all pyCharIsDigitU

/-- The per-run mapping of `natural_sort_key` with `isdigit` at Unicode
precision. -/
def tagRunU (t : List Char) : KeyElem :=
  if pyIsDigitU t then .num (digitsToNatU t) else .str (t.map Char.toLower)

/-- `natural_sort_key` with `isdigit`/`int` at Unicode precision; it
agrees with `natural_sort_key` on paths without non-ASCII digit
characters, but not in general, because the regular expression only
splits on `[0-9]` while `isdigit` accepts more. -/
def natural_sort_keyU (s : String) : List KeyElem :=
  (reSplitDigits (basename s.data)).map tagRunU

/-- Concrete environment for the near-target WebP run: a 2480x3508 WebP
image at 300 DPI, whose computed target pixel size is (2479, 3507). -/
def envX : Env :=
  ⟨fun _ => none, fun _ => ⟨2480, 3508, some 300, some "WEBP"⟩, fun _ => [7],
    fun _ _ _ _ => [8]⟩

/-! ### Generic helper lemmas -/

/-- Splitting a list by a Boolean predicate partitions its length. -/
theorem length_filter_partition {α : Type*} (p : α → Bool) (l : List α) :
    (l.filter p).length + (l.filter (fun a => !p a)).length = l.length := by
  induction l with
  | nil => rfl
  | cons a l ih =>
    by_cases h : p a = true <;> simp [List.filter, h, ← ih] <;> omega

/-- `pyInt` agrees with the floor on nonnegative arguments. -/
theorem pyInt_eq_floor {q : ℚ} (h : 0 ≤ q) : pyInt q = ⌊q⌋ := by
  simp [pyInt, not_lt.mpr h]

theorem pyInt_le {q : ℚ} (h : 0 ≤ q) : (pyInt q : ℚ) ≤ q := by
  rw [pyInt_eq_floor h]; exact Int.floor_le q

theorem lt_pyInt_add_one {q : ℚ} (h : 0 ≤ q) : q < pyInt q + 1 := by
  rw [pyInt_eq_floor h]; exact Int.lt_floor_add_one q

/-- Joining the fuel-driven chunking recovers the original list, for any
chunk size of at least one and enough fuel. -/
theorem flatten_chunksGo {α : Type*} (c : Nat) (hc : 1 ≤ c) :
    ∀ (fuel : Nat) (l : List α), l.length ≤ fuel → (chunksGo c fuel l).flatten = l := by
  intro fuel
  induction fuel with
  | zero =>
    intro l hl
    cases l with
    | nil => rfl
    | cons a l => simp at hl
  | succ fuel ih =>
    intro l hl
    cases l with
    | nil => rfl
    | cons a l =>
      have hdrop : ((a :: l).drop c).length ≤ fuel := by
        simp only [List.length_drop, List.length_cons]
        simp only [List.length_cons] at hl
        omega
      simp only [chunksGo, List.flatten_cons, ih _ hdrop, List.take_append_drop]

theorem flatten_pyChunks {α : Type*} {c : Nat} (hc : 1 ≤ c) (l : List α) :
    (pyChunks c l).flatten = l :=
  flatten_chunksGo c hc l.length l le_rfl

/-! ### Claim C9: empty input -/

/-- C9 (confirmed): with an empty discovered file list the run returns
before dispatching any work: no chunk is formed and no document is
produced (`convert_images_to_pdf` yields `none`, for every chunk size and
every arrival list). -/
theorem claim_C9 (env : Env) (c : Nat) (arrived : List (List TResult)) :
    convert_images_to_pdf env [] c arrived = none ∧ chunkResults env [] c = [] :=
  ⟨rfl, rfl⟩

/-! ### Claim C1: the resize tolerance test -/

/-- C1 (counterexample): `needs_resize` does not compare against the
target pixel dimensions passed in.  At image size 2480x3508, passed
target 2480x3508 and dpi 300 the code reports a resize (it rescales the
target by 300/72 before comparing), while the claimed criterion reports
none. -/
theorem claim_C1_counterexample :
    needs_resize (2480, 3508) (2480, 3508) 300 = true ∧
      ¬ claimNeedsResize (2480, 3508) (2480, 3508) := by
  constructor
  · norm_num [needs_resize, pyInt]
  · norm_num [claimNeedsResize]

/-- C1 (amended): `needs_resize img target dpi` returns true iff the
relative difference between the image size and `int(target * dpi / 72)`
— the passed target rescaled once more by `dpi/72` — exceeds 1% on at
least one axis. -/
theorem claim_C1 (img_size : Nat × Nat) (target_size : ℤ × ℤ) (dpi : ℚ) :
    needs_resize img_size target_size dpi = true ↔
      claimNeedsResize img_size
        (pyInt (target_size.1 * dpi / 72), pyInt (target_size.2 * dpi / 72)) := by
  simp [needs_resize, claimNeedsResize]


/-! ### Natural-sort key comparison lemmas -/

theorem charToNat_inj {a b : Char} (h : a.toNat = b.toNat) : a = b :=
  Char.ofNat_toNat a ▸ Char.ofNat_toNat b ▸ congrArg Char.ofNat h

theorem cmpNat_eq_iff {m n : Nat} : cmpNat m n = .eq ↔ m = n := by
  unfold cmpNat
  split
  · exact ⟨fun hh => Ordering.noConfusion hh, fun hh => by omega⟩
  · split
    · exact ⟨fun hh => Ordering.noConfusion hh, fun hh => by omega⟩
    · exact ⟨fun _ => by omega, fun _ => rfl⟩

theorem cmpNat_swap (m n : Nat) : cmpNat n m = (cmpNat m n).swap := by
  unfold cmpNat
  rcases Nat.lt_trichotomy m n with h | h | h <;>
    simp [h, Nat.lt_asymm, Nat.lt_irrefl, Ordering.swap]

theorem cmpNat_lt_trans {a b c : Nat} (h1 : cmpNat a b = .lt) (h2 : cmpNat b c = .lt) :
    cmpNat a c = .lt := by
  unfold cmpNat at *
  split at h1
  · split at h2
    · simp only [if_pos (by omega : a < c)]
    · exact absurd h2 (by split <;> exact fun hh => Ordering.noConfusion hh)
  · exact absurd h1 (by split <;> exact fun hh => Ordering.noConfusion hh)

theorem cmpChars_eq_iff : ∀ {a b : List Char}, cmpChars a b = .eq ↔ a = b := by
  intro a
  induction a with
  | nil => intro b; cases b <;> simp [cmpChars]
  | cons x xs ih =>
    intro b
    cases b with
    | nil => simp [cmpChars]
    | cons y ys =>
      rcases hx : cmpNat x.toNat y.toNat with _ | _ | _
      · have hne : x ≠ y := fun h => by
          subst h; rw [cmpNat_eq_iff.mpr rfl] at hx; exact Ordering.noConfusion hx
        simp [cmpChars, hx, hne]
      · have hxy : x = y := charToNat_inj (cmpNat_eq_iff.mp hx)
        subst hxy
        simp [cmpChars, hx, ih]
      · have hne : x ≠ y := fun h => by
          subst h; rw [cmpNat_eq_iff.mpr rfl] at hx; exact Ordering.noConfusion hx
        simp [cmpChars, hx, hne]

theorem cmpChars_swap : ∀ (a b : List Char), cmpChars b a = (cmpChars a b).swap := by
  intro a
  induction a with
  | nil => intro b; cases b <;> rfl
  | cons x xs ih =>
    intro b
    cases b with
    | nil => rfl
    | cons y ys =>
      have hsw : cmpNat y.toNat x.toNat = (cmpNat x.toNat y.toNat).swap :=
        cmpNat_swap x.toNat y.toNat
      rcases hxy : cmpNat x.toNat y.toNat with _ | _ | _ <;> rw [hxy] at hsw <;>
        simp only [cmpChars, hxy, hsw, Ordering.swap, ih]

theorem cmpChars_lt_trans : ∀ {a b c : List Char},
    cmpChars a b = .lt → cmpChars b c = .lt → cmpChars a c = .lt := by
  intro a
  induction a with
  | nil =>
    intro b c h1 h2
    cases b with
    | nil => exact Ordering.noConfusion h1
    | cons y ys =>
      cases c with
      | nil => exact Ordering.noConfusion h2
      | cons z zs => rfl
  | cons x xs ih =>
    intro b c h1 h2
    cases b with
    | nil => exact Ordering.noConfusion h1
    | cons y ys =>
      cases c with
      | nil => exact Ordering.noConfusion h2
      | cons z zs =>
        simp only [cmpChars] at h1 h2 ⊢
        rcases hxy : cmpNat x.toNat y.toNat with _ | _ | _ <;> simp only [hxy] at h1
        · rcases hyz : cmpNat y.toNat z.toNat with _ | _ | _ <;> simp only [hyz] at h2
          · simp [cmpNat_lt_trans hxy hyz]
          · have hy : y = z := charToNat_inj (cmpNat_eq_iff.mp hyz)
            subst hy
            simp [hxy]
          · exact Ordering.noConfusion h2
        · have hx : x = y := charToNat_inj (cmpNat_eq_iff.mp hxy)
          subst hx
          rcases hyz : cmpNat x.toNat z.toNat with _ | _ | _ <;> simp only [hyz] at h2 ⊢
          · exact ih h1 h2
          · exact Ordering.noConfusion h2
        · exact Ordering.noConfusion h1

theorem cmpElem_eq_iff : ∀ {a b : KeyElem}, cmpElem a b = some .eq ↔ a = b := by
  intro a b
  cases a <;> cases b <;>
    simp [cmpElem, cmpChars_eq_iff, cmpNat_eq_iff]

theorem cmpElem_swap : ∀ (a b : KeyElem), cmpElem b a = (cmpElem a b).map Ordering.swap := by
  intro a b
  cases a <;> cases b
  · simp only [cmpElem, Option.map_some']
    exact congrArg some (cmpChars_swap _ _)
  · rfl
  · rfl
  · simp only [cmpElem, Option.map_some']
    exact congrArg some (cmpNat_swap _ _)

theorem cmpElem_lt_trans : ∀ {a b c : KeyElem},
    cmpElem a b = some .lt → cmpElem b c = some .lt → cmpElem a c = some .lt := by
  intro a b c h1 h2
  cases a <;> cases b <;> cases c <;> simp [cmpElem] at h1 h2 ⊢
  · exact cmpChars_lt_trans h1 h2
  · exact cmpNat_lt_trans h1 h2

theorem cmpKey_eq_iff : ∀ {k1 k2 : List KeyElem}, cmpKey k1 k2 = some .eq ↔ k1 = k2 := by
  intro k1
  induction k1 with
  | nil => intro k2; cases k2 <;> simp [cmpKey]
  | cons a as ih =>
    intro k2
    cases k2 with
    | nil => simp [cmpKey]
    | cons b bs =>
      simp only [cmpKey]
      rcases hab : cmpElem a b with _ | o
      · have : a ≠ b := fun h => by
          subst h; rw [cmpElem_eq_iff.mpr rfl] at hab; exact Option.noConfusion hab
        simp [this]
      · rcases o with _ | _ | _
        · have : a ≠ b := fun h => by
            subst h; rw [cmpElem_eq_iff.mpr rfl] at hab
            exact Ordering.noConfusion (Option.some.inj hab)
          simp [this]
        · have hab' : a = b := cmpElem_eq_iff.mp hab
          subst hab'
          simp [ih]
        · have : a ≠ b := fun h => by
            subst h; rw [cmpElem_eq_iff.mpr rfl] at hab
            exact Ordering.noConfusion (Option.some.inj hab)
          simp [this]

theorem cmpKey_swap : ∀ (k1 k2 : List KeyElem),
    cmpKey k2 k1 = (cmpKey k1 k2).map Ordering.swap := by
  intro k1
  induction k1 with
  | nil => intro k2; cases k2 <;> rfl
  | cons a as ih =>
    intro k2
    cases k2 with
    | nil => rfl
    | cons b bs =>
      have hsw : cmpElem b a = (cmpElem a b).map Ordering.swap := cmpElem_swap a b
      simp only [cmpKey]
      rcases hab : cmpElem a b with _ | o
      · rw [hab] at hsw
        rw [hsw]
        rfl
      · rw [hab] at hsw
        rw [hsw]
        rcases o with _ | _ | _
        · rfl
        · exact ih bs
        · rfl

theorem cmpKey_lt_trans : ∀ {k1 k2 k3 : List KeyElem},
    cmpKey k1 k2 = some .lt → cmpKey k2 k3 = some .lt → cmpKey k1 k3 = some .lt := by
  intro k1
  induction k1 with
  | nil =>
    intro k2 k3 h1 h2
    cases k2 with
    | nil => simp [cmpKey] at h1
    | cons b bs =>
      cases k3 with
      | nil => simp [cmpKey] at h2
      | cons c cs => rfl
  | cons a as ih =>
    intro k2 k3 h1 h2
    cases k2 with
    | nil => simp [cmpKey] at h1
    | cons b bs =>
      cases k3 with
      | nil => simp [cmpKey] at h2
      | cons c cs =>
        simp only [cmpKey] at h1 h2 ⊢
        rcases hab : cmpElem a b with _ | o <;> rw [hab] at h1
        · simp at h1
        rcases o with _ | _ | _
        · -- first elements compare strictly less
          rcases hbc : cmpElem b c with _ | o2 <;> rw [hbc] at h2
          · simp at h2
          rcases o2 with _ | _ | _
          · rw [cmpElem_lt_trans hab hbc]
          · have hb : b = c := cmpElem_eq_iff.mp hbc
            subst hb
            rw [hab]
          · simp at h2
        · -- first elements compare equal, hence are equal
          have hb : a = b := cmpElem_eq_iff.mp hab
          subst hb
          simp only [] at h1
          rcases hac : cmpElem a c with _ | o2 <;> rw [hac] at h2
          · simp at h2
          rcases o2 with _ | _ | _
          · rfl
          · exact ih h1 h2
          · simp at h2
        · simp at h1

theorem dropWhile_head_false {α : Type*} {p : α → Bool} :
    ∀ {l : List α} {d : α} {r : List α}, l.dropWhile p = d :: r → p d = false := by
  intro l
  induction l with
  | nil => intro d r h; exact List.noConfusion h
  | cons a l ih =>
    intro d r h
    by_cases hp : p a = true
    · rw [List.dropWhile_cons_of_pos hp] at h
      exact ih h
    · rw [List.dropWhile_cons_of_neg hp] at h
      cases h
      exact Bool.not_eq_true _ ▸ (by simpa using hp)

theorem tag_text {t : List Char} (h : ∀ c ∈ t, (!c.isDigit) = true) :
    tagRun t = .str (t.map Char.toLower) := by
  have hpd : pyIsDigit t = false := by
    cases t with
    | nil => rfl
    | cons c cs =>
      have hc : (!c.isDigit) = true := h c (List.mem_cons_self c cs)
      simp only [Bool.not_eq_true'] at hc
      simp [pyIsDigit, hc]
  simp [tagRun, hpd]

theorem tag_digit {t : List Char} (hne : t ≠ []) (h : ∀ c ∈ t, c.isDigit = true) :
    tagRun t = .num (digitsToNat t) := by
  have hall : t.all Char.isDigit = true := List.all_eq_true.mpr h
  have hje : t.isEmpty = false := by
    cases t with
    | nil => exact absurd rfl hne
    | cons a l => rfl
  simp [tagRun, pyIsDigit, hje, hall]

theorem altOK_splitGo : ∀ (fuel : Nat) (s : List Char),
    altOK false ((splitGo fuel s).map tagRun) = true := by
  intro fuel
  induction fuel with
  | zero =>
    intro s
    have ht := tag_text (t := s.takeWhile (fun c => !c.isDigit))
      (fun c hc => List.mem_takeWhile_imp (p := fun c : Char => !c.isDigit) hc)
    simp [splitGo, ht, altOK]
  | succ fuel ih =>
    intro s
    have ht := tag_text (t := s.takeWhile (fun c => !c.isDigit))
      (fun c hc => List.mem_takeWhile_imp (p := fun c : Char => !c.isDigit) hc)
    rcases hdw : s.dropWhile (fun c => !c.isDigit) with _ | ⟨d, rest⟩
    · simp [splitGo, hdw, ht, altOK]
    · have hd : d.isDigit = true := by
        have := dropWhile_head_false hdw
        simpa using this
      have hne : (d :: rest).takeWhile Char.isDigit ≠ [] := by
        simp [List.takeWhile_cons, hd]
      have hn := tag_digit (t := (d :: rest).takeWhile Char.isDigit) hne
        (fun c hc => List.mem_takeWhile_imp hc)
      simp [splitGo, hdw, ht, hn, altOK, ih]

theorem cmpKey_ne_none : ∀ (k1 : List KeyElem) (b : Bool) (k2 : List KeyElem),
    altOK b k1 = true → altOK b k2 = true → cmpKey k1 k2 ≠ none := by
  intro k1
  induction k1 with
  | nil =>
    intro b k2 _ _
    cases k2 <;> simp [cmpKey]
  | cons e r ih =>
    intro b k2 h1 h2
    cases k2 with
    | nil => simp [cmpKey]
    | cons f q =>
      cases b <;> cases e <;> cases f <;> simp [altOK] at h1 h2 ⊢ <;>
        simp only [cmpKey, cmpElem]
      · rcases hc : cmpChars _ _ with _ | _ | _
        · simp
        · exact ih true q h1 h2
        · simp
      · rcases hc : cmpNat _ _ with _ | _ | _
        · simp
        · exact ih false q h1 h2
        · simp

theorem keyLE_total (k1 k2 : List KeyElem) : keyLE k1 k2 = true ∨ keyLE k2 k1 = true := by
  unfold keyLE
  rcases h : cmpKey k1 k2 with _ | o
  · left; rfl
  · rcases o with _ | _ | _
    · left; rfl
    · left; rfl
    · right
      have hsw := cmpKey_swap k1 k2
      rw [h] at hsw
      rw [hsw]
      rfl

theorem keyLE_trans_of_alt {k1 k2 k3 : List KeyElem}
    (w1 : altOK false k1 = true) (w2 : altOK false k2 = true) (w3 : altOK false k3 = true)
    (h12 : keyLE k1 k2 = true) (h23 : keyLE k2 k3 = true) : keyLE k1 k3 = true := by
  unfold keyLE at *
  rcases h13 : cmpKey k1 k3 with _ | o
  · rfl
  rcases o with _ | _ | _
  · rfl
  · rfl
  · exfalso
    rcases h12' : cmpKey k1 k2 with _ | o12
    · exact cmpKey_ne_none k1 false k2 w1 w2 h12'
    rcases o12 with _ | _ | _
    · rcases h23' : cmpKey k2 k3 with _ | o23
      · exact cmpKey_ne_none k2 false k3 w2 w3 h23'
      rcases o23 with _ | _ | _
      · have := cmpKey_lt_trans h12' h23'
        rw [h13] at this
        exact Ordering.noConfusion (Option.some.inj this)
      · have hk : k2 = k3 := cmpKey_eq_iff.mp h23'
        subst hk
        rw [h12'] at h13
        exact Ordering.noConfusion (Option.some.inj h13)
      · rw [h23'] at h23
        exact Bool.noConfusion h23
    · have hk : k1 = k2 := cmpKey_eq_iff.mp h12'
      subst hk
      rw [h13] at h23
      exact Bool.noConfusion h23
    · rw [h12'] at h12
      exact Bool.noConfusion h12

theorem altOK_key (s : String) : altOK false (natural_sort_key s) = true :=
  altOK_splitGo _ _

theorem keyLE_refl_of_eq {k1 k2 : List KeyElem} (h : k1 = k2) : keyLE k1 k2 = true := by
  subst h
  unfold keyLE
  rw [cmpKey_eq_iff.mpr rfl]

instance : IsTotal String fileLE :=
  ⟨fun _ _ => keyLE_total _ _⟩

instance : IsTrans String fileLE :=
  ⟨fun a b c h1 h2 => keyLE_trans_of_alt (altOK_key a) (altOK_key b) (altOK_key c) h1 h2⟩

theorem altOK_get : ∀ (k : List KeyElem) (b : Bool), altOK b k = true →
    ∀ (i : Nat) (h : i < k.length),
      isStrElem (k.get ⟨i, h⟩) = (decide (i % 2 = 0) == !b) := by
  intro k
  induction k with
  | nil => intro b _ i h; simp at h
  | cons e r ih =>
    intro b hb i h
    cases i with
    | zero =>
      cases b <;> cases e <;> simp [altOK] at hb <;> simp [isStrElem]
    | succ i =>
      have hr : altOK (!b) r = true := by
        cases b <;> cases e <;> simp [altOK] at hb ⊢ <;> assumption
      have hstep := ih (!b) hr i (Nat.lt_of_succ_lt_succ h)
      simp only [List.get_cons_succ]
      rw [hstep]
      by_cases hp : i % 2 = 0
      · have h1 : ¬((i + 1) % 2 = 0) := by omega
        simp [hp, h1]
      · have h1 : (i + 1) % 2 = 0 := by omega
        simp [hp, h1]

/-! ### Claim C10: keys are always mutually comparable -/
theorem all_congr_mem {α : Type*} {p q : α → Bool} :
    ∀ {l : List α}, (∀ c ∈ l, p c = q c) → l.all p = l.all q := by
  intro l
  induction l with
  | nil => intro _; rfl
  | cons a l ih =>
    intro h
    simp only [List.all_cons, h a (List.mem_cons_self a l),
      ih (fun c hc => h c (List.mem_cons_of_mem a hc))]

theorem foldl_digit_congr : ∀ (t : List Char) (a : Nat), (∀ c ∈ t, c.isDigit = true) →
    t.foldl (fun a c => 10 * a + digitValU c) a
      = t.foldl (fun a c => 10 * a + (c.toNat - 48)) a := by
  intro t
  induction t with
  | nil => intro a _; rfl
  | cons c cs ih =>
    intro a h
    have hc : c.isDigit = true := h c (List.mem_cons_self c cs)
    simp only [List.foldl_cons, digitValU, if_pos hc]
    exact ih _ (fun d hd => h d (List.mem_cons_of_mem c hd))

theorem tagRunU_eq_tagRun {t : List Char} (h : ∀ c ∈ t, pyCharIsDigitU c = c.isDigit) :
    tagRunU t = tagRun t := by
  have hall : t.all pyCharIsDigitU = t.all Char.isDigit := all_congr_mem h
  have hpy : pyIsDigitU t = pyIsDigit t := by simp [pyIsDigitU, pyIsDigit, hall]
  by_cases hd : pyIsDigit t = true
  · have hdigits : ∀ c ∈ t, c.isDigit = true := by
      intro c hc
      simp only [pyIsDigit, Bool.and_eq_true] at hd
      exact List.all_eq_true.mp hd.2 c hc
    have hfold := foldl_digit_congr t 0 hdigits
    simp [tagRunU, tagRun, hpy, hd, digitsToNatU, digitsToNat, hfold]
  · have hd' : pyIsDigit t = false := by simpa using hd
    simp [tagRunU, tagRun, hpy, hd']

theorem mem_basename_subset {l : List Char} {c : Char} (h : c ∈ basename l) : c ∈ l := by
  unfold basename at h
  rw [List.mem_reverse] at h
  have h2 := (List.takeWhile_sublist _).subset h
  rwa [List.mem_reverse] at h2

theorem mem_splitGo_subset : ∀ (fuel : Nat) (s t : List Char), t ∈ splitGo fuel s →
    ∀ c ∈ t, c ∈ s := by
  intro fuel
  induction fuel with
  | zero =>
    intro s t ht c hc
    simp only [splitGo, List.mem_singleton] at ht
    subst ht
    exact (List.takeWhile_sublist _).subset hc
  | succ fuel ih =>
    intro s t ht c hc
    rcases hdw : s.dropWhile (fun c => !c.isDigit) with _ | ⟨d, rest⟩ <;>
      simp only [splitGo, hdw, List.mem_singleton, List.mem_cons] at ht
    · rcases ht with ht | ht
      · subst ht
        exact (List.takeWhile_sublist _).subset hc
      · exact absurd ht (List.not_mem_nil t)
    · rcases ht with ht | ht | ht
      · subst ht
        exact (List.takeWhile_sublist _).subset hc
      · subst ht
        have h2 : c ∈ d :: rest := (List.takeWhile_sublist _).subset hc
        rw [← hdw] at h2
        exact (List.dropWhile_sublist _).subset h2
      · have h2 : c ∈ (d :: rest).dropWhile Char.isDigit := ih _ t ht c hc
        have h3 : c ∈ d :: rest := (List.dropWhile_sublist _).subset h2
        rw [← hdw] at h3
        exact (List.dropWhile_sublist _).subset h3

theorem keyU_eq_key {s : String} (h : ∀ c ∈ s.data, pyCharIsDigitU c = c.isDigit) :
    natural_sort_keyU s = natural_sort_key s := by
  unfold natural_sort_keyU natural_sort_key reSplitDigits
  apply List.map_congr_left
  intro t ht
  apply tagRunU_eq_tagRun
  intro c hc
  exact h c (mem_basename_subset (mem_splitGo_subset _ _ t ht c hc))

/-- C5 (confirmed): the Sequencer orders `["img2.png","img10.png","img1.png"]`
as `["img1.png","img2.png","img10.png"]`; its output is always a
permutation of its input, sorted under the natural-sort key comparison
(text runs lowered, digit runs as integers, left to right), and two
inputs with identical keys keep their input order (stability). -/
theorem claim_C5 (a b : String) (l : List String)
    (hkey : natural_sort_key a = natural_sort_key b) (hsub : List.Sublist [a, b] l) :
    naturalSort ["img2.png", "img10.png", "img1.png"]
        = ["img1.png", "img2.png", "img10.png"]
      ∧ (∀ m : List String, (naturalSort m).Perm m)
      ∧ (∀ m : List String, List.Sorted fileLE (naturalSort m))
      ∧ List.Sublist [a, b] (naturalSort l) := by
  refine ⟨by decide, fun m => List.perm_insertionSort _ _,
    fun m => List.sorted_insertionSort _ _, ?_⟩
  exact List.pair_sublist_insertionSort (keyLE_refl_of_eq hkey) hsub

/-- C5 witness: `"x1.png"` and `"X01.PNG"` have identical keys (case
folding and integer comparison of digit runs), and their input order is
preserved by the sort. -/
theorem claim_C5_witness :
    natural_sort_key "x1.png" = natural_sort_key "X01.PNG" ∧
      List.Sublist [("x1.png" : String), "X01.PNG"] ["x1.png", "X01.PNG"] ∧
      (naturalSort ["img2.png", "img10.png", "img1.png"]
          = ["img1.png", "img2.png", "img10.png"]
        ∧ (∀ m : List String, (naturalSort m).Perm m)
        ∧ (∀ m : List String, List.Sorted fileLE (naturalSort m))
        ∧ List.Sublist [("x1.png" : String), "X01.PNG"] (naturalSort ["x1.png", "X01.PNG"])) :=
  ⟨by decide, List.Sublist.refl _,
    claim_C5 "x1.png" "X01.PNG" _ (by decide) (List.Sublist.refl _)⟩

instance : IsTotal TResult resLE := ⟨fun a b => Nat.le_total a.index b.index⟩

instance : IsTrans TResult resLE := ⟨fun _ _ _ h1 h2 => Nat.le_trans h1 h2⟩

instance : IsAntisymm TResult resLT :=
  ⟨fun _ _ h1 h2 => absurd (Nat.lt_trans h1 h2) (Nat.lt_irrefl _)⟩

theorem processItem_index (env : Env) (t : Nat × String) :
    (processItem env t).index = t.1 := by
  rcases h : env.exn t.2 with _ | msg <;> simp [processItem, h, TResult.index]

theorem flatten_chunkResults (env : Env) (files : List String) {c : Nat} (hc : 1 ≤ c) :
    (chunkResults env files c).flatten
      = (naturalSort files).enum.map (processItem env) := by
  unfold chunkResults process_image_chunk
  rw [← List.map_flatten, flatten_pyChunks hc]

theorem map_index_canonical (env : Env) (files : List String) :
    ((naturalSort files).enum.map (processItem env)).map TResult.index
      = List.range files.length := by
  rw [List.map_map]
  have h : TResult.index ∘ processItem env = Prod.fst := by
    funext t
    exact processItem_index env t
  rw [h, List.enum_map_fst]
  simp only [naturalSort, List.length_insertionSort]

theorem pairwise_lt_canonical (env : Env) (files : List String) :
    ((naturalSort files).enum.map (processItem env)).Pairwise resLT := by
  have h := List.pairwise_lt_range files.length
  rw [← map_index_canonical env files, List.pairwise_map] at h
  exact h

theorem filterMap_pageOf_filter (l : List TResult) :
    (l.filter (fun r => r.isSuccess)).filterMap pageOf = l.filterMap pageOf := by
  induction l with
  | nil => rfl
  | cons r l ih =>
    cases r with
    | ok i buf w hh fmt cv =>
      have h1 : List.filter (fun r => r.isSuccess) (TResult.ok i buf w hh fmt cv :: l)
          = TResult.ok i buf w hh fmt cv :: List.filter (fun r => r.isSuccess) l := rfl
      rw [h1, List.filterMap_cons, List.filterMap_cons, ih]
    | err i msg =>
      have h1 : List.filter (fun r => r.isSuccess) (TResult.err i msg :: l)
          = List.filter (fun r => r.isSuccess) l := rfl
      rw [h1, List.filterMap_cons, ih]
      rfl

theorem sorted_successes (env : Env) (files : List String) (c : Nat)
    (arrived : List (List TResult)) (hc : 1 ≤ c)
    (hp : arrived.Perm (chunkResults env files c)) :
    List.insertionSort resLE (arrived.flatten.filter (fun r => r.isSuccess))
      = ((naturalSort files).enum.map (processItem env)).filter (fun r => r.isSuccess) := by
  have hL : arrived.flatten.Perm ((naturalSort files).enum.map (processItem env)) := by
    have h := hp.flatten
    rwa [flatten_chunkResults env files hc] at h
  have hF := hL.filter (fun r => r.isSuccess)
  have hs : (List.insertionSort resLE (arrived.flatten.filter (fun r => r.isSuccess))).Perm
      (((naturalSort files).enum.map (processItem env)).filter (fun r => r.isSuccess)) :=
    (List.perm_insertionSort _ _).trans hF
  have hCanLT : (((naturalSort files).enum.map (processItem env)).filter
      (fun r => r.isSuccess)).Pairwise resLT :=
    (pairwise_lt_canonical env files).filter _
  have hSortLE : (List.insertionSort resLE
      (arrived.flatten.filter (fun r => r.isSuccess))).Pairwise resLE :=
    List.sorted_insertionSort _ _
  have hnodup : ((List.insertionSort resLE
      (arrived.flatten.filter (fun r => r.isSuccess))).map TResult.index).Nodup := by
    have h1 : ((((naturalSort files).enum.map (processItem env)).filter
        (fun r => r.isSuccess)).map TResult.index).Nodup :=
      (List.pairwise_map).mpr (hCanLT.imp (fun h => Nat.ne_of_lt h))
    exact ((hs.map TResult.index).nodup_iff).mpr h1
  have hne : (List.insertionSort resLE
      (arrived.flatten.filter (fun r => r.isSuccess))).Pairwise
        (fun a b => a.index ≠ b.index) :=
    (List.pairwise_map).mp hnodup
  have hSortLT : (List.insertionSort resLE
      (arrived.flatten.filter (fun r => r.isSuccess))).Pairwise resLT :=
    (hSortLE.and hne).imp (fun h => Nat.lt_of_le_of_ne h.1 h.2)
  exact List.eq_of_perm_of_sorted hs hSortLT hCanLT

/-! ### Claims C2, C3, C8: ordering, completeness, summary -/

/-- C2 (confirmed): for every file set, chunk size of at least one and
arrival order (any permutation of the submitted chunk results), the
final document's page sequence equals the natural-sort order of the
inputs restricted to the items whose transform succeeded: the Compositor
sorts by index ascending and emits pages in that order. -/
theorem claim_C2 (env : Env) (files : List String) (c : Nat) (arrived : List (List TResult))
    (hc : 1 ≤ c) (hp : arrived.Perm (chunkResults env files c)) (hne : files ≠ []) :
    (convert_images_to_pdf env files c arrived).map Prod.fst
      = some (canonicalPages env files) := by
  have hlen : (naturalSort files).length = files.length := by
    simp [naturalSort, List.length_insertionSort]
  have hempty : (naturalSort files).isEmpty = false := by
    cases hnf : naturalSort files with
    | nil =>
      exfalso
      apply hne
      rw [hnf] at hlen
      exact List.length_eq_zero.mp hlen.symm
    | cons a l => rfl
  unfold convert_images_to_pdf
  simp only [hempty, Bool.false_eq_true, if_neg, ite_false, Option.map_some]
  unfold create_pdf_from_buffers canonicalPages
  rw [sorted_successes env files c arrived hc hp, filterMap_pageOf_filter]
  rfl

/-- C3 (confirmed): every task yields exactly one result carrying its
index (the multiset of result indices equals `0..n-1`), and the success
count plus the failure count equals the number of input files, for every
chunk size of at least one and every arrival order. -/
theorem claim_C3 (env : Env) (files : List String) (c : Nat) (arrived : List (List TResult))
    (hc : 1 ≤ c) (hp : arrived.Perm (chunkResults env files c)) :
    (arrived.flatten.map TResult.index).Perm (List.range files.length) ∧
      (arrived.flatten.filter (fun r => r.isSuccess)).length
        + (arrived.flatten.filter (fun r => !r.isSuccess)).length = files.length := by
  have hL : arrived.flatten.Perm ((naturalSort files).enum.map (processItem env)) := by
    have h := hp.flatten
    rwa [flatten_chunkResults env files hc] at h
  have hAlen : arrived.flatten.length = files.length := by
    rw [hL.length_eq]
    simp [naturalSort, List.length_insertionSort]
  constructor
  · have h := hL.map TResult.index
    rwa [map_index_canonical] at h
  · rw [length_filter_partition]
    exact hAlen

/-- C8 (amended): the run summary emits exactly the three values total
processed, converted and skipped; a failed-item count is not among them,
but it is determined by them: failures equal `totalProcessed − converted
− skipped`, so failed items remain distinguishable from successes only
by this arithmetic, not as a distinct reported value. -/
theorem claim_C8 (env : Env) (files : List String) (c : Nat) (arrived : List (List TResult))
    (hc : 1 ≤ c) (hp : arrived.Perm (chunkResults env files c)) (hne : files ≠ []) :
    ∃ pages s, convert_images_to_pdf env files c arrived = some (pages, s)
      ∧ summaryValues s = [files.length, s.converted, s.skipped]
      ∧ s.totalProcessed = s.converted + s.skipped + failedCount arrived.flatten := by
  have hlen : (naturalSort files).length = files.length := by
    simp [naturalSort, List.length_insertionSort]
  have hempty : (naturalSort files).isEmpty = false := by
    cases hnf : naturalSort files with
    | nil =>
      exfalso
      apply hne
      rw [hnf] at hlen
      exact List.length_eq_zero.mp hlen.symm
    | cons a l => rfl
  have hL : arrived.flatten.Perm ((naturalSort files).enum.map (processItem env)) := by
    have h := hp.flatten
    rwa [flatten_chunkResults env files hc] at h
  have hAlen : arrived.flatten.length = files.length := by
    rw [hL.length_eq]
    simp [naturalSort, List.length_insertionSort]
  refine ⟨create_pdf_from_buffers (arrived.flatten.filter (fun r => r.isSuccess)),
    ⟨(naturalSort files).length,
      (arrived.flatten.filter (fun r => r.isSuccess && r.convertedFlag)).length,
      (arrived.flatten.filter (fun r => r.isSuccess && !r.convertedFlag)).length⟩, ?_, ?_, ?_⟩
  · unfold convert_images_to_pdf
    simp only [hempty, Bool.false_eq_true, if_neg, ite_false]
  · simp [summaryValues, hlen]
  · have h1 := length_filter_partition (fun r => r.isSuccess) arrived.flatten
    have h2 := length_filter_partition (fun r => r.convertedFlag)
      (arrived.flatten.filter (fun r => r.isSuccess))
    rw [List.filter_filter, List.filter_filter] at h2
    have e1 : (fun (r : TResult) => r.convertedFlag && r.isSuccess)
        = (fun r => r.isSuccess && r.convertedFlag) := by
      funext r
      exact Bool.and_comm _ _
    have e2 : (fun (r : TResult) => !r.convertedFlag && r.isSuccess)
        = (fun r => r.isSuccess && !r.convertedFlag) := by
      funext r
      exact Bool.and_comm _ _
    rw [e1, e2] at h2
    show (naturalSort files).length = _ + _ + failedCount arrived.flatten
    unfold failedCount
    rw [hlen]
    dsimp only
    omega

/-! ### Claim C4: idempotent passthrough -/

/-- C4 (amended): passthrough is gated by the code's `needs_resize` test
(which rescales the already-computed pixel target by `dpi/72` once more),
not by closeness to the computed target itself: when that test reports no
resize, no exception occurs and the file is WebP (the code identifies the
target encoding by the `.webp` extension, line 67), the transform passes
the original file bytes through untouched and marks the result as not
converted. -/
theorem claim_C4 (env : Env) (i : Nat) (p : String)
    (hexn : env.exn p = none) (hwebp : is_webp_path p = true)
    (hnr : needs_resize ((env.img p).width, (env.img p).height)
        (fitSize (env.img p).width (env.img p).height (dpiOf (env.img p)))
        (dpiOf (env.img p)) = false) :
    processItem env (i, p)
      = .ok i (env.fileBytes p)
          ((fitSize (env.img p).width (env.img p).height (dpiOf (env.img p))).1 * 72
            / dpiOf (env.img p))
          ((fitSize (env.img p).width (env.img p).height (dpiOf (env.img p))).2 * 72
            / dpiOf (env.img p))
          (some "WEBP") false := by
  simp [processItem, hexn, hwebp, hnr]

/-- C4 witness: a 595x841 WebP image at 72 DPI is within tolerance and is
passed through byte-identical, not converted. -/
theorem claim_C4_witness :
    envW.exn "a.webp" = none ∧
      is_webp_path "a.webp" = true ∧
      needs_resize ((envW.img "a.webp").width, (envW.img "a.webp").height)
          (fitSize (envW.img "a.webp").width (envW.img "a.webp").height
            (dpiOf (envW.img "a.webp")))
          (dpiOf (envW.img "a.webp")) = false ∧
      processItem envW (0, "a.webp")
        = .ok 0 (envW.fileBytes "a.webp")
            ((fitSize (envW.img "a.webp").width (envW.img "a.webp").height
                (dpiOf (envW.img "a.webp"))).1 * 72 / dpiOf (envW.img "a.webp"))
            ((fitSize (envW.img "a.webp").width (envW.img "a.webp").height
                (dpiOf (envW.img "a.webp"))).2 * 72 / dpiOf (envW.img "a.webp"))
            (some "WEBP") false :=
  ⟨rfl, by decide,
    by norm_num [envW, dpiOf, fitSize, needs_resize, pyInt, A4w, A4h],
    claim_C4 envW 0 "a.webp" rfl (by decide)
      (by norm_num [envW, dpiOf, fitSize, needs_resize, pyInt, A4w, A4h])⟩

/-- C4 (counterexample): a 2480x3508 WebP image at 300 DPI is within the
claimed 1% tolerance of its computed target pixel size (2479, 3507) —
the relative difference is about 0.04% — yet the code resizes and
re-encodes it: the result is marked converted and its payload is the
encoder output, not the source file's bytes. -/
theorem claim_C4_counterexample :
    is_webp_path "a.webp" = true
      ∧ envX.exn "a.webp" = none
      ∧ fitSize (envX.img "a.webp").width (envX.img "a.webp").height
          (dpiOf (envX.img "a.webp")) = (2479, 3507)
      ∧ ¬ claimNeedsResize ((envX.img "a.webp").width, (envX.img "a.webp").height)
          (2479, 3507)
      ∧ processItem envX (0, "a.webp")
          = .ok 0 [8] ((2479 : ℚ) * 72 / 300) ((3507 : ℚ) * 72 / 300) (some "WEBP") true
      ∧ ([8] : Bytes) ≠ envX.fileBytes "a.webp" := by
  refine ⟨by decide, rfl, ?_, ?_, ?_, by decide⟩
  · norm_num [envX, dpiOf, fitSize, pyInt, A4w, A4h]
  · norm_num [envX, claimNeedsResize]
  · have himg : envX.img "a.webp" = ⟨2480, 3508, some 300, some "WEBP"⟩ := rfl
    have hfit : fitSize 2480 3508 300 = (2479, 3507) := by
      norm_num [fitSize, pyInt, A4w, A4h]
    have hnr : needs_resize (2480, 3508) ((2479 : ℤ), (3507 : ℤ)) 300 = true := by
      norm_num [needs_resize, pyInt]
    have hwb : is_webp_path "a.webp" = true := by decide
    simp [processItem, himg, dpiOf, hfit, hnr, hwb, envX]

/-! ### Claim C6: aspect-preserving fit -/

/-- Transfers a pixel bound back through the physical-size conversion
`width_pt = pixels * 72 / dpi` (main.py lines 109-110). -/
theorem physical_le {a : ℤ} {b dpi : ℚ} (hdpi : 0 < dpi) (hab : (a : ℚ) ≤ b * dpi / 72) :
    (a : ℚ) * 72 / dpi ≤ b := by
  rw [div_le_iff hdpi]
  calc (a : ℚ) * 72 ≤ (b * dpi / 72) * 72 :=
        mul_le_mul_of_nonneg_right hab (by norm_num)
    _ = b * dpi := by field_simp

/-- C6 (confirmed): with positive dimensions and DPI, both computed
target pixel dimensions are the truncations of `img * s * dpi / 72`
where `s = min(pageW/imgW, pageH/imgH)` (so within one pixel of exact,
aspect preserved before rounding: the exact values have ratio `w/h`),
and the recorded physical size never exceeds either A4 page dimension. -/
theorem claim_C6 (w h : Nat) (dpi : ℚ) (hw : 0 < w) (hh : 0 < h) (hdpi : 0 < dpi) :
    ((fitSize w h dpi).1 : ℚ) ≤ w * min (A4w / w) (A4h / h) * dpi / 72
      ∧ w * min (A4w / w) (A4h / h) * dpi / 72 < (fitSize w h dpi).1 + 1
      ∧ ((fitSize w h dpi).2 : ℚ) ≤ h * min (A4w / w) (A4h / h) * dpi / 72
      ∧ h * min (A4w / w) (A4h / h) * dpi / 72 < (fitSize w h dpi).2 + 1
      ∧ (w * min (A4w / w) (A4h / h) * dpi / 72) / (h * min (A4w / w) (A4h / h) * dpi / 72)
          = (w : ℚ) / h
      ∧ ((fitSize w h dpi).1 : ℚ) * 72 / dpi ≤ A4w
      ∧ ((fitSize w h dpi).2 : ℚ) * 72 / dpi ≤ A4h := by
  have hwQ : (0 : ℚ) < w := by exact_mod_cast hw
  have hhQ : (0 : ℚ) < h := by exact_mod_cast hh
  have hA4w : (0 : ℚ) < A4w := by norm_num [A4w]
  have hA4h : (0 : ℚ) < A4h := by norm_num [A4h]
  have hwr : (0 : ℚ) < A4w / w := div_pos hA4w hwQ
  have hhr : (0 : ℚ) < A4h / h := div_pos hA4h hhQ
  have hwid : (w : ℚ) * (A4w / w) = A4w := by field_simp
  have hhgt : (h : ℚ) * (A4h / h) = A4h := by field_simp
  have hratio : ∀ s : ℚ, 0 < s →
      (w * s * dpi / 72) / (h * s * dpi / 72) = (w : ℚ) / h := by
    intro s hs
    have hsne : s ≠ 0 := ne_of_gt hs
    have hdne : dpi ≠ 0 := ne_of_gt hdpi
    have hhne : (h : ℚ) ≠ 0 := ne_of_gt hhQ
    field_simp
    ring
  by_cases hlt : A4w / w < A4h / h
  · have hmin : min (A4w / w) (A4h / h) = A4w / w := min_eq_left hlt.le
    have hfit : fitSize w h dpi
        = (pyInt (A4w * dpi / 72), pyInt (h * (A4w / w) * dpi / 72)) := by
      simp only [fitSize]
      rw [if_pos hlt]
    have hx1 : (0 : ℚ) ≤ A4w * dpi / 72 := by positivity
    have hx2 : (0 : ℚ) ≤ (h : ℚ) * (A4w / w) * dpi / 72 := by positivity
    have hexact1 : (w : ℚ) * (A4w / w) * dpi / 72 = A4w * dpi / 72 := by rw [hwid]
    refine ⟨?_, ?_, ?_, ?_, ?_, ?_, ?_⟩
    · rw [hfit, hmin, hexact1]
      exact pyInt_le hx1
    · rw [hfit, hmin, hexact1]
      exact lt_pyInt_add_one hx1
    · rw [hfit, hmin]
      exact pyInt_le hx2
    · rw [hfit, hmin]
      exact lt_pyInt_add_one hx2
    · rw [hmin]
      exact hratio _ hwr
    · rw [hfit]
      exact physical_le hdpi (pyInt_le hx1)
    · rw [hfit]
      refine physical_le hdpi ((pyInt_le hx2).trans ?_)
      have hble : (h : ℚ) * (A4w / w) ≤ (h : ℚ) * (A4h / h) :=
        mul_le_mul_of_nonneg_left hlt.le hhQ.le
      rw [hhgt] at hble
      have hble2 : (h : ℚ) * (A4w / w) * dpi ≤ A4h * dpi :=
        mul_le_mul_of_nonneg_right hble hdpi.le
      exact (div_le_div_right (by norm_num : (0 : ℚ) < 72)).mpr hble2
  · have hge : A4h / h ≤ A4w / w := not_lt.mp hlt
    have hmin : min (A4w / w) (A4h / h) = A4h / h := min_eq_right hge
    have hfit : fitSize w h dpi
        = (pyInt (w * (A4h / h) * dpi / 72), pyInt (A4h * dpi / 72)) := by
      simp only [fitSize]
      rw [if_neg hlt]
    have hx1 : (0 : ℚ) ≤ (w : ℚ) * (A4h / h) * dpi / 72 := by positivity
    have hx2 : (0 : ℚ) ≤ A4h * dpi / 72 := by positivity
    have hexact2 : (h : ℚ) * (A4h / h) * dpi / 72 = A4h * dpi / 72 := by rw [hhgt]
    refine ⟨?_, ?_, ?_, ?_, ?_, ?_, ?_⟩
    · rw [hfit, hmin]
      exact pyInt_le hx1
    · rw [hfit, hmin]
      exact lt_pyInt_add_one hx1
    · rw [hfit, hmin, hexact2]
      exact pyInt_le hx2
    · rw [hfit, hmin, hexact2]
      exact lt_pyInt_add_one hx2
    · rw [hmin]
      exact hratio _ hhr
    · rw [hfit]
      refine physical_le hdpi ((pyInt_le hx1).trans ?_)
      have hble : (w : ℚ) * (A4h / h) ≤ (w : ℚ) * (A4w / w) :=
        mul_le_mul_of_nonneg_left hge hwQ.le
      rw [hwid] at hble
      have hble2 : (w : ℚ) * (A4h / h) * dpi ≤ A4w * dpi :=
        mul_le_mul_of_nonneg_right hble hdpi.le
      exact (div_le_div_right (by norm_num : (0 : ℚ) < 72)).mpr hble2
    · rw [hfit]
      exact physical_le hdpi (pyInt_le hx2)

/-- C6 witness: the 1000x500 image of the spec example at 300 DPI. -/
theorem claim_C6_witness :
    (0 < 1000 ∧ 0 < 500 ∧ (0 : ℚ) < 300) ∧
      (((fitSize 1000 500 300).1 : ℚ) ≤ 1000 * min (A4w / 1000) (A4h / 500) * 300 / 72
        ∧ 1000 * min (A4w / 1000) (A4h / 500) * 300 / 72 < (fitSize 1000 500 300).1 + 1
        ∧ ((fitSize 1000 500 300).2 : ℚ) ≤ 500 * min (A4w / 1000) (A4h / 500) * 300 / 72
        ∧ 500 * min (A4w / 1000) (A4h / 500) * 300 / 72 < (fitSize 1000 500 300).2 + 1
        ∧ (1000 * min (A4w / 1000) (A4h / 500) * 300 / 72)
            / (500 * min (A4w / 1000) (A4h / 500) * 300 / 72) = (1000 : ℚ) / 500
        ∧ ((fitSize 1000 500 300).1 : ℚ) * 72 / 300 ≤ A4w
        ∧ ((fitSize 1000 500 300).2 : ℚ) * 72 / 300 ≤ A4h) :=
  ⟨⟨by norm_num, by norm_num, by norm_num⟩,
    by
      have h := claim_C6 1000 500 300 (by norm_num) (by norm_num) (by norm_num)
      simpa using h⟩

theorem proc5_ok (i : Nat) (p : String) (hexn : env5.exn p = none)
    (hw : is_webp_path p = false) :
    processItem env5 (i, p) = .ok i [1] 595 841 (some "PNG") true := by
  have himg : env5.img p = ⟨595, 841, some 72, some "PNG"⟩ := rfl
  have hfit : fitSize 595 841 72 = (595, 841) := by
    norm_num [fitSize, pyInt, A4w, A4h]
  have hnr : needs_resize (595, 841) ((595 : ℤ), (841 : ℤ)) 72 = false := by
    norm_num [needs_resize, pyInt]
  simp [processItem, hexn, hw, himg, dpiOf, hfit, hnr]
  rfl

theorem proc5_err : processItem env5 (2, "p3.png") = .err 2 "corrupt" := by
  have h : env5.exn "p3.png" = some "corrupt" := rfl
  simp [processItem, h]

theorem chunks5 : chunkResults env5 files5 2 =
    [[.ok 0 [1] 595 841 (some "PNG") true, .ok 1 [1] 595 841 (some "PNG") true],
     [.err 2 "corrupt", .ok 3 [1] 595 841 (some "PNG") true],
     [.ok 4 [1] 595 841 (some "PNG") true]] := by
  have hsort : naturalSort files5 = files5 := by decide
  have h0 := proc5_ok 0 "p1.png" rfl (by decide)
  have h1 := proc5_ok 1 "p2.png" rfl (by decide)
  have h3 := proc5_ok 3 "p4.png" rfl (by decide)
  have h4 := proc5_ok 4 "p5.png" rfl (by decide)
  rw [chunkResults, hsort]
  simp [files5, pyChunks, chunksGo, List.enum, List.enumFrom, process_image_chunk,
    h0, h1, h3, h4, proc5_err]


/-! ### Claim C7: per-item failure isolation -/

/-- C7 (confirmed): an exception while processing an item is recorded as
a failure result carrying that item's index and message; the results of
the other items of the same chunk are computed independently (chunk
processing is the per-item map, so surrounding items are unaffected); and
the concrete five-file run whose third file is corrupt produces a
four-page document of items 1, 2, 4, 5 (indices 0, 1, 3, 4) in order. -/
theorem claim_C7 :
    (∀ (env : Env) (i : Nat) (p : String) (msg : String),
        env.exn p = some msg → processItem env (i, p) = .err i msg)
      ∧ (∀ (env : Env) (pre : List (Nat × String)) (t : Nat × String)
            (post : List (Nat × String)),
          process_image_chunk env (pre ++ t :: post)
            = process_image_chunk env pre
                ++ processItem env t :: process_image_chunk env post)
      ∧ (convert_images_to_pdf env5 files5 2 (chunkResults env5 files5 2)).map
          (fun pr => pr.1.map Page.index) = some [0, 1, 3, 4] := by
  refine ⟨?_, ?_, by decide⟩
  · intro env i p msg h
    simp [processItem, h]
  · intro env pre t post
    simp [process_image_chunk]

/-- C7 witness: the corrupt third file of the concrete run is recorded as
`err 2 "corrupt"` and its neighbours are processed unaffected. -/
theorem claim_C7_witness :
    env5.exn "p3.png" = some "corrupt" ∧
      processItem env5 (2, "p3.png") = .err 2 "corrupt" ∧
      process_image_chunk env5 ([(0, "p1.png")] ++ (2, "p3.png") :: [(3, "p4.png")])
        = process_image_chunk env5 [(0, "p1.png")]
            ++ processItem env5 (2, "p3.png") :: process_image_chunk env5 [(3, "p4.png")] ∧
      (convert_images_to_pdf env5 files5 2 (chunkResults env5 files5 2)).map
        (fun pr => pr.1.map Page.index) = some [0, 1, 3, 4] :=
  ⟨rfl, claim_C7.1 env5 2 "p3.png" "corrupt" rfl,
    claim_C7.2.1 env5 [(0, "p1.png")] (2, "p3.png") [(3, "p4.png")],
    claim_C7.2.2⟩

/-- C8 (counterexample): the five-file run with one failure emits the
summary values `[5, 4, 0]` (total, converted, skipped); its failed count
is 1, which is not among the emitted values — the failed count is not
reported as a distinct value alongside the other three. -/
theorem claim_C8_counterexample :
    (convert_images_to_pdf env5 files5 2 (chunkResults env5 files5 2)).map
        (fun pr => summaryValues pr.2) = some [5, 4, 0]
      ∧ failedCount (chunkResults env5 files5 2).flatten = 1
      ∧ ¬ ((1 : Nat) ∈ [5, 4, 0]) := by
  refine ⟨?_, by decide, by decide⟩
  rw [chunks5]
  have hsort : naturalSort files5 = files5 := by decide
  unfold convert_images_to_pdf
  rw [hsort]
  simp [files5, summaryValues, TResult.isSuccess, TResult.convertedFlag]

/-- C2 witness: the concrete five-file run, submitted arrival order. -/
theorem claim_C2_witness :
    (1 ≤ 2 ∧ (chunkResults env5 files5 2).Perm (chunkResults env5 files5 2)
        ∧ files5 ≠ []) ∧
      (convert_images_to_pdf env5 files5 2 (chunkResults env5 files5 2)).map Prod.fst
        = some (canonicalPages env5 files5) :=
  ⟨⟨by decide, List.Perm.refl _, by decide⟩,
    claim_C2 env5 files5 2 (chunkResults env5 files5 2) (by decide)
      (List.Perm.refl _) (by decide)⟩

/-- C3 witness: the concrete five-file run, submitted arrival order. -/
theorem claim_C3_witness :
    (1 ≤ 2 ∧ (chunkResults env5 files5 2).Perm (chunkResults env5 files5 2)) ∧
      (((chunkResults env5 files5 2).flatten.map TResult.index).Perm
          (List.range files5.length)
        ∧ ((chunkResults env5 files5 2).flatten.filter (fun r => r.isSuccess)).length
            + ((chunkResults env5 files5 2).flatten.filter (fun r => !r.isSuccess)).length
            = files5.length) :=
  ⟨⟨by decide, List.Perm.refl _⟩,
    claim_C3 env5 files5 2 (chunkResults env5 files5 2) (by decide) (List.Perm.refl _)⟩

/-- C8 witness: the amended summary statement at the concrete run. -/
theorem claim_C8_witness :
    (1 ≤ 2 ∧ (chunkResults env5 files5 2).Perm (chunkResults env5 files5 2)
        ∧ files5 ≠ []) ∧
      (∃ pages s,
        convert_images_to_pdf env5 files5 2 (chunkResults env5 files5 2) = some (pages, s)
          ∧ summaryValues s = [files5.length, s.converted, s.skipped]
          ∧ s.totalProcessed = s.converted + s.skipped
              + failedCount (chunkResults env5 files5 2).flatten) :=
  ⟨⟨by decide, List.Perm.refl _, by decide⟩,
    claim_C8 env5 files5 2 (chunkResults env5 files5 2) (by decide)
      (List.Perm.refl _) (by decide)⟩
